import Mathlib

/-!
Shallow embedding of the bkai EPUB reader core (src/epub/service.rs,
src/epub/model.rs, src/state/mod.rs).

Rust `String`/`&str` values are modelled by Lean `String`; every string
operation the source uses (`trim`, `to_ascii_lowercase`, `lines`,
`split_whitespace`, ...) is re-implemented below on the underlying
character list so that all definitions compute by kernel reduction.

Paths (`PathBuf`) are modelled by their string form; `Path::ends_with`
(whole-component suffix) is modelled by comparing `/`-separated component
lists, and `HashMap<PathBuf, String>` by an association list whose keys
are unique by construction (insert-only-if-absent).

The external collaborators (the `epub` crate's `EpubDoc` package reader
and the `html2text` renderer) are out of the repository; they enter as
plain data: the reader as a structure of its accessor results, the
renderer as a `String → List TaggedLine` parameter.
-/

namespace Bkai

/-! ## Character and string primitives (Rust `str` operations) -/

/-- Rust `char::is_whitespace`, restricted to the whitespace test Lean provides. -/
def isWS (c : Char) : Bool := c.isWhitespace

/-- Drop trailing characters satisfying `p` (helper for `trim`). -/
def dropTrailing (p : Char → Bool) (l : List Char) : List Char :=
  (l.reverse.dropWhile p).reverse

/-- Characters of Rust `str::trim`: drop leading and trailing whitespace. -/
def trimChars (l : List Char) : List Char :=
  dropTrailing isWS (l.dropWhile isWS)

/-- Rust `str::trim`. -/
def rsTrim (s : String) : String := ⟨trimChars s.data⟩

/-- Rust `str::trim_start`. -/
def rsTrimStart (s : String) : String := ⟨s.data.dropWhile isWS⟩

/-- Rust `str::trim_matches(pred)`: drop leading and trailing characters
satisfying `pred`. -/
def rsTrimMatches (p : Char → Bool) (s : String) : String :=
  ⟨dropTrailing p (s.data.dropWhile p)⟩

/-- Rust `char::to_ascii_lowercase`. -/
def asciiLower (c : Char) : Char :=
  if 'A' ≤ c ∧ c ≤ 'Z' then Char.ofNat (c.toNat + 32) else c

/-- Rust `str::to_ascii_lowercase`. -/
def rsToAsciiLowercase (s : String) : String := ⟨s.data.map asciiLower⟩

/-- Rust `str::eq_ignore_ascii_case`. -/
def rsEqIgnoreAsciiCase (a b : String) : Bool :=
  a.data.map asciiLower == b.data.map asciiLower

/-- Substring test on character lists: `needle` occurs contiguously in `hay`. -/
def listContainsSub (hay needle : List Char) : Bool :=
  match hay with
  | [] => needle.isEmpty
  | _ :: t => needle.isPrefixOf hay || listContainsSub t needle

/-- Rust `str::contains(&str)`: substring test. -/
def rsContains (hay needle : String) : Bool := listContainsSub hay.data needle.data

/-- Rust `str::ends_with(&str)`. -/
def rsEndsWith (s suffix : String) : Bool := suffix.data.isSuffixOf s.data

/-- Rust `str::is_empty`. -/
def rsIsEmpty (s : String) : Bool := s.data.isEmpty

/-- Join character lists with a separator (Rust `Vec<&str>::join`). -/
def joinWith (sep : List Char) : List (List Char) → List Char
  | [] => []
  | [x] => x
  | x :: xs => x ++ sep ++ joinWith sep xs

/-- Split a character list at every occurrence of `sep` (all pieces kept). -/
def splitOnCharGo (sep : Char) : List Char → List Char → List (List Char)
  | [], acc => [acc.reverse]
  | c :: rest, acc =>
    if c == sep then acc.reverse :: splitOnCharGo sep rest []
    else splitOnCharGo sep rest (c :: acc)

/-- Rust `str::lines`: split at `\n`, dropping one trailing line terminator,
and strip a trailing `\r` from each line. -/
def rsLines (s : String) : List String :=
  if s.data.isEmpty then []
  else
    let pieces := splitOnCharGo '\n' s.data []
    let pieces := if s.data.getLast? == some '\n' then pieces.dropLast else pieces
    pieces.map (fun p => ⟨if p.getLast? == some '\r' then p.dropLast else p⟩)

/-- Pieces of Rust `str::split_whitespace` (non-empty maximal runs of
non-whitespace). -/
def splitWSGo : List Char → List Char → List (List Char)
  | [], acc => if acc.isEmpty then [] else [acc.reverse]
  | c :: rest, acc =>
    if isWS c then
      if acc.isEmpty then splitWSGo rest [] else acc.reverse :: splitWSGo rest []
    else splitWSGo rest (c :: acc)

/-- `/`-separated non-empty components of a path string (model of
`Path::components`). -/
def pathComponents (s : String) : List (List Char) :=
  (splitOnCharGo '/' s.data []).filter (fun c => !c.isEmpty)

/-- Rust `Path::ends_with(child)`: the child's components are a suffix of the
path's components. -/
def pathEndsWith (p child : String) : Bool :=
  (pathComponents child).isSuffixOf (pathComponents p)

/-! ## Data model (src/epub/model.rs) -/

/-- `TextSpan` of model.rs: a run of text with style flags. -/
structure TextSpan where
  text : String
  bold : Bool
  italic : Bool
deriving DecidableEq, Repr

/-- `TextSpan::plain`. -/
def TextSpan.plain (t : String) : TextSpan := ⟨t, false, false⟩

/-- `TextSpan::styled`. -/
def TextSpan.styled (t : String) (b i : Bool) : TextSpan := ⟨t, b, i⟩

/-- `ChapterBlock` of model.rs. -/
inductive ChapterBlock where
  | Heading (level : Nat) (spans : List TextSpan)
  | Paragraph (spans : List TextSpan)
deriving DecidableEq, Repr

/-- The span list of a block (the `Heading { spans, .. } | Paragraph { spans }`
match both service.rs loops use). -/
def ChapterBlock.spans : ChapterBlock → List TextSpan
  | .Heading _ s => s
  | .Paragraph s => s

/-- `Chapter` of model.rs. -/
structure Chapter where
  id : String
  title : Option String
  href : String
  blocks : List ChapterBlock
  plain_text : String
deriving DecidableEq, Repr

/-- `BookMetadata` of model.rs. -/
structure BookMetadata where
  identifier : Option String
  title : Option String
  authors : List String
  language : Option String
  description : Option String
deriving DecidableEq, Repr

/-! ## html2text interface (external renderer)

`render_rich(..).into_lines()` of the html2text crate yields tagged lines;
a line is a sequence of elements, each a tagged string or a fragment-start
marker. Annotations other than `Strong`/`Emphasis` are collapsed into
`other`. -/

/-- The rich-annotation kind of html2text, as the source inspects it: only
`Strong` and `Emphasis` are distinguished. -/
inductive RichAnn where
  | Strong
  | Emphasis
  | other (k : Nat)
deriving DecidableEq, Repr

/-- One `TaggedString` of a rendered line. -/
structure TaggedString where
  s : String
  tag : List RichAnn
deriving DecidableEq, Repr

/-- One element of a `TaggedLine`: a tagged string or a fragment start. -/
inductive TaggedLineElement where
  | str (ts : TaggedString)
  | fragmentStart (name : String)
deriving DecidableEq, Repr

/-- A `TaggedLine<Vec<RichAnn>>`. -/
abbrev TaggedLine := List TaggedLineElement

/-- `TaggedLine::tagged_strings`: the tagged strings of the line, in order. -/
def taggedStrings (line : TaggedLine) : List TaggedString :=
  line.filterMap (fun e =>
    match e with
    | .str ts => some ts
    | .fragmentStart _ => none)

/-- `TaggedLine::into_string`: concatenation of the line's tagged strings. -/
def lineIntoString (line : TaggedLine) : String :=
  ⟨(taggedStrings line).flatMap (fun ts => ts.s.data)⟩

/-! ## Markup block parser (service.rs lines 284-531) -/

/-- Characters of `spans_to_text`: within a block, trim each span text, drop
empty ones, join with a single space. -/
def spansToTextChars (spans : List TextSpan) : List Char :=
  joinWith [' '] ((spans.map (fun s => trimChars s.text.data)).filter
    (fun l => !l.isEmpty))

/-- `spans_to_text`. -/
def spans_to_text (spans : List TextSpan) : String :=
  ⟨spansToTextChars spans⟩

/-- `blocks_to_plain_text`: map blocks to their span text, drop those whose
text trims to empty, join with a blank line. -/
def blocks_to_plain_text (blocks : List ChapterBlock) : String :=
  ⟨joinWith ['\n', '\n'] ((blocks.map (fun b => spansToTextChars b.spans)).filter
    (fun t => !(trimChars t).isEmpty))⟩

/-- `normalize_whitespace`: `split_whitespace` then join with single spaces. -/
def normalize_whitespace (text : String) : String :=
  ⟨joinWith [' '] (splitWSGo text.data [])⟩

/-- `underline_heading_level`: the next line, trimmed, made of `=` only is a
level-1 underline, of `-` only a level-2 underline. -/
def underline_heading_level (next_line : Option String) : Option Nat :=
  match next_line with
  | none => none
  | some line =>
    let trimmed := rsTrim line
    if trimmed.data.isEmpty then none
    else if trimmed.data.all (fun c => c == '=') then some 1
    else if trimmed.data.all (fun c => c == '-') then some 2
    else none

/-- `parse_hash_heading`: `#`-prefixed heading, level = number of hashes
capped at 6, text after the hashes trimmed and required non-empty. -/
def parse_hash_heading (line : String) : Option (Nat × String) :=
  if line.data.head? == some '#' then
    let level := min (line.data.takeWhile (fun c => c == '#')).length 6
    let text := rsTrim ⟨line.data.drop level⟩
    if text.data.isEmpty then none else some (max level 1, text)
  else none

/-- `parse_list_item`: a `*`http/`-`/`+` bullet or `<digits>.` numeral line
becomes a `("• ", rest)` pair. -/
def parse_list_item (line : String) : Option (String × String) :=
  let trimmed := rsTrimStart line
  if "* ".data.isPrefixOf trimmed.data then
    some ("• ", ⟨trimmed.data.drop 2⟩)
  else if "- ".data.isPrefixOf trimmed.data then
    some ("• ", ⟨trimmed.data.drop 2⟩)
  else if "+ ".data.isPrefixOf trimmed.data then
    some ("• ", ⟨trimmed.data.drop 2⟩)
  else
    let digits := trimmed.data.takeWhile Char.isDigit
    let rest := trimmed.data.drop digits.length
    if !digits.isEmpty && rest.head? == some '.' then
      some ("• ", ⟨rest.tail.dropWhile isWS⟩)
    else none

/-- `spans_from_line` inner loop over the line's tagged strings. -/
def spansFromLineGo : List TaggedString → List TextSpan
  | [] => []
  | ts :: rest =>
    if ts.s.data.isEmpty then spansFromLineGo rest
    else
      let bold := ts.tag.any (fun a => a == RichAnn.Strong)
      let italic := ts.tag.any (fun a => a == RichAnn.Emphasis)
      let text := rsTrim ts.s
      if text.data.isEmpty then spansFromLineGo rest
      else
        let text :=
          if bold || italic then
            rsTrim (rsTrimMatches (fun c => c == '*' || c == '_') text)
          else text
        if text.data.isEmpty then spansFromLineGo rest
        else TextSpan.styled text bold italic :: spansFromLineGo rest

/-- `spans_from_line`: spans of one rendered line, bold iff a `Strong`
annotation is present, italic iff `Emphasis`. -/
def spans_from_line (line : TaggedLine) : List TextSpan :=
  spansFromLineGo (taggedStrings line)

/-- `push_span`: append a span, merging it into the last span when the style
flags agree (inserting a space unless one is already present). -/
def push_span (target : List TextSpan) (span : TextSpan) : List TextSpan :=
  if span.text.data.isEmpty then target
  else
    match target.getLast? with
    | some last =>
      if last.bold == span.bold && last.italic == span.italic then
        let lastText :=
          if !(last.text.data.getLast? == some ' ') && !(span.text.data.head? == some ' ')
          then (⟨last.text.data ++ [' ']⟩ : String)
          else last.text
        target.dropLast ++ [⟨⟨lastText.data ++ span.text.data⟩, last.bold, last.italic⟩]
      else target ++ [span]
    | none => target ++ [span]

/-- `merge_spans`: fold `push_span` over the spans. -/
def merge_spans (spans : List TextSpan) : List TextSpan :=
  spans.foldl push_span []

/-- The in-place space insertion `append_spans` performs on the last span of
the target before its first pushed span. -/
def addSpaceToLast (target : List TextSpan) : List TextSpan :=
  match target.getLast? with
  | none => target
  | some last =>
    if last.text.data.getLast? == some ' ' then target
    else target.dropLast ++ [{ last with text := ⟨last.text.data ++ [' ']⟩ }]

/-- `append_spans` loop: push each non-empty span, inserting a space before
the first one when requested. -/
def appendSpansGo (insert_space : Bool) :
    List TextSpan → List TextSpan → Bool → List TextSpan
  | target, [], _ => target
  | target, s :: rest, first =>
    let target :=
      if insert_space && first && !target.isEmpty then addSpaceToLast target
      else target
    appendSpansGo insert_space (push_span target s) rest false

/-- `append_spans`. -/
def append_spans (target : List TextSpan) (spans : List TextSpan)
    (insert_space : Bool) : List TextSpan :=
  appendSpansGo insert_space target
    (spans.filter (fun s => !s.text.data.isEmpty)) true

/-- `flush_paragraph_spans`: merge the accumulated spans and emit a paragraph
block when the merged text is non-empty after trimming. -/
def flush_paragraph_spans (para : List TextSpan) : List ChapterBlock :=
  if para.isEmpty then []
  else
    let merged := merge_spans para
    let text := spans_to_text merged
    if (trimChars text.data).isEmpty then []
    else [ChapterBlock.Paragraph merged]

/-- Main loop of `blocks_from_tagged_lines` (the `while i < lines.len()`
scan); `para` is the running `paragraph_spans` accumulator. The underline
branch of the source advances `i` by 2, consuming the underline line. -/
def bftlGo : List TaggedLine → List TextSpan → List ChapterBlock
  | [], para => flush_paragraph_spans para
  | line :: rest, para =>
    let trimmed := rsTrim (lineIntoString line)
    if trimmed.data.isEmpty then
      flush_paragraph_spans para ++ bftlGo rest []
    else
      match rest,
        underline_heading_level ((rest.head?).map (fun l => rsTrim (lineIntoString l))) with
      | _ :: rest2, some level =>
        flush_paragraph_spans para ++
          (ChapterBlock.Heading level [TextSpan.plain trimmed] :: bftlGo rest2 [])
      | [], some level =>
        flush_paragraph_spans para ++
          (ChapterBlock.Heading level [TextSpan.plain trimmed] :: bftlGo [] [])
      | rest, none =>
        match parse_hash_heading trimmed with
        | some (level, text) =>
          flush_paragraph_spans para ++
            (ChapterBlock.Heading level [TextSpan.plain text] :: bftlGo rest [])
        | none =>
          match parse_list_item trimmed with
          | some (pre, text) =>
            flush_paragraph_spans para ++
              (ChapterBlock.Paragraph [TextSpan.plain (pre ++ rsTrim text)] ::
                bftlGo rest [])
          | none =>
            bftlGo rest
              (append_spans para (spans_from_line line) (!para.isEmpty))

/-- `blocks_from_tagged_lines`: the scan, then the whole-fragment fallback
paragraph when the scan produced no block. -/
def blocks_from_tagged_lines (lines : List TaggedLine) : List ChapterBlock :=
  let blocks := bftlGo lines []
  if blocks.isEmpty then
    let fallback := joinWith ['\n'] (lines.map (fun l => (lineIntoString l).data))
    let condensed := normalize_whitespace ⟨fallback⟩
    if (trimChars condensed.data).isEmpty then []
    else [ChapterBlock.Paragraph [TextSpan.plain (rsTrim condensed)]]
  else blocks

/-- `html_to_blocks`, with the html2text render pass (an external library
call) abstracted as `render`. -/
def html_to_blocks (render : String → List TaggedLine) (html : String) :
    List ChapterBlock :=
  blocks_from_tagged_lines (render html)

/-- `html_to_plain_text`, with html2text's `from_read` abstracted as
`fromRead`; the source trims its output. -/
def html_to_plain_text (fromRead : String → String) (html : String) : String :=
  rsTrim (fromRead html)

/-! ## TOC normalizer (service.rs lines 197-282) -/

/-- `NavPoint` of the epub crate: label, target path, children. -/
structure NavPoint where
  label : String
  content : String
  children : List NavPoint
deriving Repr

/-- `normalize_nav_path`: strip the `#fragment` suffix, if any. -/
def normalize_nav_path (p : String) : String :=
  if p.data.contains '#' then ⟨p.data.takeWhile (fun c => c ≠ '#')⟩ else p

/-- The TOC label map, `HashMap<PathBuf, String>` modelled as an association
list with unique keys. -/
abbrev LabelMap := List (String × String)

/-- `HashMap::get` on the label map. -/
def lookupLabel (labels : LabelMap) (key : String) : Option String :=
  (labels.find? (fun e => e.1 == key)).map (fun e => e.2)

/-- `labels.entry(key).or_insert_with(..)`: insert only when the key is
absent. -/
def insertIfAbsent (labels : LabelMap) (key : String) (label : String) : LabelMap :=
  if labels.any (fun e => e.1 == key) then labels else labels ++ [(key, label)]

mutual
/-- `collect_nav_labels`: depth-first walk inserting first-seen labels. -/
def collect_nav_labels : NavPoint → LabelMap → LabelMap
  | NavPoint.mk label content children, labels =>
    collectNavLabelsList children
      (insertIfAbsent labels (normalize_nav_path content) label)

/-- The `for child in &nav_point.children` recursion of `collect_nav_labels`,
also used by `build_toc_label_map` over the roots. -/
def collectNavLabelsList : List NavPoint → LabelMap → LabelMap
  | [], labels => labels
  | c :: cs, labels => collectNavLabelsList cs (collect_nav_labels c labels)
end

/-- `build_toc_label_map`. -/
def build_toc_label_map (nav : List NavPoint) : LabelMap :=
  collectNavLabelsList nav []

mutual
/-- Depth-first pre-order flattening of one nav node (specification side of
C8: the node itself, then its children's flattenings in sibling order). -/
def navFlatten : NavPoint → List NavPoint
  | NavPoint.mk label content children =>
    NavPoint.mk label content children :: navFlattenList children

/-- Depth-first pre-order flattening of a forest, in sibling order. -/
def navFlattenList : List NavPoint → List NavPoint
  | [] => []
  | c :: cs => navFlatten c ++ navFlattenList cs
end

/-! ## Chapter builder and title derivation (service.rs lines 146-270) -/

/-- The first block whose merged span text is non-empty after trimming,
yielding that trimmed text (the `for block in blocks` loop of
`derive_chapter_title`). -/
def firstBlockTitle (blocks : List ChapterBlock) : Option String :=
  blocks.findSome? (fun b =>
    let text := spans_to_text b.spans
    if (trimChars text.data).isEmpty then none else some (rsTrim text))

/-- `match_toc_label`: first label map entry whose key is a whole-component
suffix of the resource path. -/
def match_toc_label (toc_labels : LabelMap) (resource_path : String) :
    Option String :=
  (toc_labels.find? (fun e => pathEndsWith resource_path e.1)).map (fun e => e.2)

/-- `derive_chapter_title`: the ordered fallback chain. -/
def derive_chapter_title (toc_labels : LabelMap) (resource_path : String)
    (blocks : List ChapterBlock) (plain_text : String) (fallback_id : String) :
    Option String :=
  match lookupLabel toc_labels resource_path with
  | some label => some label
  | none =>
    match match_toc_label toc_labels resource_path with
    | some label => some label
    | none =>
      match firstBlockTitle blocks with
      | some t => some t
      | none =>
        match (rsLines plain_text).find? (fun line => !(rsTrim line).data.isEmpty) with
        | some line => some (rsTrim line)
        | none =>
          if !fallback_id.data.isEmpty then some fallback_id else none

/-- One manifest resource of the package reader: path and media type. -/
structure ResourceItem where
  path : String
  mime : String
deriving DecidableEq, Repr

/-- The package reader data `collect_chapters` consumes: the `id → resource`
table and the raw fragment text accessor `get_resource_str`. -/
structure PackageDoc where
  resources : List (String × ResourceItem)
  resourceStr : String → Option String

/-- `doc.resources.get(idref)` on the resource table. -/
def lookupResource (doc : PackageDoc) (idref : String) : Option ResourceItem :=
  (doc.resources.find? (fun e => e.1 == idref)).map (fun e => e.2)

/-- The `for spine_item in spine_items` loop of `collect_chapters`. -/
def collectChaptersGo (render : String → List TaggedLine)
    (fromRead : String → String) (doc : PackageDoc) (toc_labels : LabelMap) :
    List String → List Chapter
  | [] => []
  | idref :: rest =>
    match lookupResource doc idref with
    | none => collectChaptersGo render fromRead doc toc_labels rest
    | some resource =>
      let mimeLower := rsToAsciiLowercase resource.mime
      if !(rsContains mimeLower "html" || rsContains mimeLower "xhtml") then
        collectChaptersGo render fromRead doc toc_labels rest
      else
        match doc.resourceStr idref with
        | none => collectChaptersGo render fromRead doc toc_labels rest
        | some html =>
          let blocks := html_to_blocks render html
          let plain_text :=
            if blocks.isEmpty then html_to_plain_text fromRead html
            else blocks_to_plain_text blocks
          let title :=
            derive_chapter_title toc_labels resource.path blocks plain_text idref
          { id := idref, title := title, href := resource.path,
            blocks := blocks, plain_text := plain_text } ::
            collectChaptersGo render fromRead doc toc_labels rest

/-- `collect_chapters`. -/
def collect_chapters (render : String → List TaggedLine)
    (fromRead : String → String) (doc : PackageDoc) (spine : List String)
    (toc_labels : LabelMap) : List Chapter :=
  collectChaptersGo render fromRead doc toc_labels spine

/-- Specification-side retention test of C5: the reading-order id resolves to
a manifest entry, its media type contains "html" or "xhtml" case-insensitively,
and its fragment text is retrievable. -/
def spineIdKept (doc : PackageDoc) (idref : String) : Bool :=
  match lookupResource doc idref with
  | none => false
  | some r =>
    (rsContains (rsToAsciiLowercase r.mime) "html" ||
      rsContains (rsToAsciiLowercase r.mime) "xhtml") &&
    (doc.resourceStr idref).isSome

/-! ## Metadata normalizer (service.rs lines 55-144) -/

/-- One raw metadata `(property, value)` pair of the package reader. -/
structure MetaItem where
  property : String
  value : String
deriving DecidableEq, Repr

/-- The key match both metadata scans use: the lowercased property equals the
lowercased key or ends with `:<key>`. -/
def matchesKey (keys : List String) (property : String) : Bool :=
  let p := rsToAsciiLowercase property
  keys.any (fun key =>
    let k := rsToAsciiLowercase key
    p == k || rsEndsWith p ⟨':' :: k.data⟩)

/-- `metadata_value`: value of the first matching pair. -/
def metadata_value (metadata : List MetaItem) (keys : List String) : Option String :=
  (metadata.find? (fun item => matchesKey keys item.property)).map (fun i => i.value)

/-- The `for item in &doc.metadata` loop of `collect_metadata_values`;
`values` is the accumulator. -/
def collectMetaGo (keys : List String) : List MetaItem → List String → List String
  | [], values => values
  | item :: rest, values =>
    if matchesKey keys item.property then
      let value := rsTrim item.value
      if !value.data.isEmpty &&
          !(values.any (fun existing => rsEqIgnoreAsciiCase existing value)) then
        collectMetaGo keys rest (values ++ [value])
      else collectMetaGo keys rest values
    else collectMetaGo keys rest values

/-- `collect_metadata_values`: all matching values, trimmed, empty discarded,
deduplicated case-insensitively in first-seen order. -/
def collect_metadata_values (metadata : List MetaItem) (keys : List String) :
    List String :=
  collectMetaGo keys metadata []

/-- Specification-side case-insensitive first-seen dedup (C7): keep each
value and drop every later value equal to it ignoring ASCII case. -/
def dedupCaseInsensitive : List String → List String
  | [] => []
  | v :: rest =>
    v :: dedupCaseInsensitive (rest.filter (fun w => !rsEqIgnoreAsciiCase v w))
termination_by l => l.length
decreasing_by
  simp only [List.length_cons]
  exact Nat.lt_succ_of_le (List.length_filter_le _ _)

/-- Specification-side author list of C7: trimmed values of the matching
pairs, empties discarded, then case-insensitive first-seen dedup. -/
def claimedAuthorList (metadata : List MetaItem) (keys : List String) :
    List String :=
  dedupCaseInsensitive
    (((metadata.filter (fun i => matchesKey keys i.property)).map
        (fun i => rsTrim i.value)).filter (fun v => !v.data.isEmpty))

/-- The package reader data `extract_metadata` consumes: the raw metadata
pairs, `get_release_identifier()`, and the result of the dedicated title
accessor `get_title()` (external to the repository; it reads the same raw
pairs, so it is `none` whenever no pair matches the title key). -/
structure MetaDoc where
  metadata : List MetaItem
  releaseIdentifier : Option String
  docTitle : Option String
deriving DecidableEq, Repr

/-- `extract_metadata`. -/
def extract_metadata (doc : MetaDoc) : BookMetadata :=
  let identifier := metadata_value doc.metadata ["identifier"]
  let release_identifier := doc.releaseIdentifier
  let title :=
    match doc.docTitle with
    | some t => some t
    | none => metadata_value doc.metadata ["title"]
  let authors := collect_metadata_values doc.metadata ["creator", "author"]
  let language := metadata_value doc.metadata ["language"]
  let description := metadata_value doc.metadata ["description", "abstract"]
  { identifier :=
      match identifier with
      | some i => some i
      | none => release_identifier,
    title := title, authors := authors, language := language,
    description := description }

/-! ## Reader state (src/state/mod.rs) -/

/-- The chapter-bearing part of `Book` that `jump_to_chapter_href` reads. -/
structure Book where
  id : String
  chapters : List Chapter
deriving DecidableEq, Repr

/-- `ReaderState`. -/
structure ReaderState where
  active_book : Option Book
  current_chapter : Option Nat
deriving DecidableEq, Repr

/-- `ReaderState::jump_to_chapter_href`: result flag and the state after the
call. -/
def jump_to_chapter_href (s : ReaderState) (href : String) : Bool × ReaderState :=
  match s.active_book with
  | none => (false, s)
  | some book =>
    match (book.chapters.enum).find? (fun p => p.2.href == href) with
    | some (index, _) => (true, { s with current_chapter := some index })
    | none => (false, s)

/-! ## Specification-side definitions for C2, C3 -/

/-- C2's asserted block shape: exactly one span, unstyled. -/
def unstyledSingleton (b : ChapterBlock) : Bool :=
  match b.spans with
  | [s] => !s.bold && !s.italic
  | _ => false

/-- No tagged string of the line carries a `Strong` or `Emphasis` annotation. -/
def lineUnstyled (line : TaggedLine) : Bool :=
  (taggedStrings line).all (fun ts =>
    ts.tag.all (fun a =>
      !(a == RichAnn.Strong) && !(a == RichAnn.Emphasis)))

/-- C9's invariant on a final block: non-empty span list and merged text
non-empty after trimming. -/
def goodBlock (b : ChapterBlock) : Bool :=
  !b.spans.isEmpty && !(trimChars (spansToTextChars b.spans)).isEmpty

/-- C3's flattening exactly as the claim words it: span texts joined with a
single space (no trimming, no dropping), blocks with empty joined text
skipped, blocks joined with a blank line. -/
def claimedFlatten (blocks : List ChapterBlock) : String :=
  ⟨joinWith ['\n', '\n'] ((blocks.map (fun b =>
      joinWith [' '] (b.spans.map (fun s => s.text.data)))).filter
    (fun t => !t.isEmpty))⟩

/-- C3's flattening as amended: per block the trimmed span texts with empty
ones dropped joined with a single space, blocks with empty joined text
skipped, blocks joined with a blank line. -/
def amendedFlatten (blocks : List ChapterBlock) : String :=
  ⟨joinWith ['\n', '\n'] ((blocks.map (fun b => spansToTextChars b.spans)).filter
    (fun t => !t.isEmpty))⟩

/-- The trimmed non-empty matching values of a metadata list, in order
(the stream `collect_metadata_values` deduplicates). -/
def matchedVals (keys : List String) (metadata : List MetaItem) : List String :=
  ((metadata.filter (fun i => matchesKey keys i.property)).map
    (fun i => rsTrim i.value)).filter (fun v => !v.data.isEmpty)

/-- Invariant of the `paragraph_spans` accumulator under style-free input:
empty, or a single unstyled span. -/
def paraOK (para : List TextSpan) : Prop :=
  para = [] ∨ ∃ s, para = [s] ∧ s.bold = false ∧ s.italic = false

/-! # Theorems -/

/-! ## Trimming toolkit -/

theorem dropWhile_self (p : Char → Bool) (l : List Char) :
    (l.dropWhile p).dropWhile p = l.dropWhile p := by
  induction l with
  | nil => rfl
  | cons c xs ih =>
    cases h : p c with
    | true => simpa [List.dropWhile_cons, h] using ih
    | false => simp [List.dropWhile_cons, h]

theorem head?_dropWhile (p : Char → Bool) (l : List Char) :
    ∀ c, (l.dropWhile p).head? = some c → p c = false := by
  induction l with
  | nil => intro c hc; simp at hc
  | cons a xs ih =>
    intro c hc
    cases h : p a with
    | true => exact ih c (by simpa [List.dropWhile_cons, h] using hc)
    | false =>
      rw [List.dropWhile_cons_of_neg (by simp [h])] at hc
      simp only [List.head?_cons, Option.some.injEq] at hc
      rw [← hc]; exact h

theorem dropWhile_eq_self_of_head (p : Char → Bool) (l : List Char)
    (h : ∀ c, l.head? = some c → p c = false) : l.dropWhile p = l := by
  cases l with
  | nil => rfl
  | cons a xs => simp [List.dropWhile_cons, h a rfl]

theorem dropTrailing_eq_self_of_last (p : Char → Bool) (l : List Char)
    (h : ∀ c, l.getLast? = some c → p c = false) : dropTrailing p l = l := by
  unfold dropTrailing
  rw [dropWhile_eq_self_of_head p l.reverse
    (fun c hc => h c (by rwa [List.head?_reverse] at hc)), List.reverse_reverse]

theorem getLast?_dropTrailing (p : Char → Bool) (l : List Char) :
    ∀ c, (dropTrailing p l).getLast? = some c → p c = false := by
  intro c hc
  have : (dropTrailing p l).reverse.head? = some c := by
    rw [List.head?_reverse]; exact hc
  rw [dropTrailing, List.reverse_reverse] at this
  exact head?_dropWhile p l.reverse c this

theorem dropTrailing_isPrefix (p : Char → Bool) (l : List Char) :
    dropTrailing p l <+: l := by
  have h : (l.reverse.dropWhile p) <:+ l.reverse := List.dropWhile_suffix p
  have := List.reverse_prefix.mpr h
  rwa [List.reverse_reverse] at this

theorem head?_trimChars (l : List Char) :
    ∀ c, (trimChars l).head? = some c → isWS c = false := by
  intro c hc
  rw [trimChars] at hc
  obtain ⟨t, ht⟩ := dropTrailing_isPrefix isWS (l.dropWhile isWS)
  have h2 : (l.dropWhile isWS).head? = some c := by
    rw [← ht, List.head?_append, hc]; rfl
  exact head?_dropWhile isWS l c h2

theorem getLast?_trimChars (l : List Char) :
    ∀ c, (trimChars l).getLast? = some c → isWS c = false :=
  getLast?_dropTrailing isWS (l.dropWhile isWS)

theorem trimChars_eq_self_of (l : List Char)
    (hh : ∀ c, l.head? = some c → isWS c = false)
    (hl : ∀ c, l.getLast? = some c → isWS c = false) : trimChars l = l := by
  unfold trimChars
  rw [dropWhile_eq_self_of_head isWS l hh, dropTrailing_eq_self_of_last isWS l hl]

theorem trimChars_idem (l : List Char) : trimChars (trimChars l) = trimChars l :=
  trimChars_eq_self_of (trimChars l) (head?_trimChars l) (getLast?_trimChars l)

theorem mem_dropWhile_of_mem (p : Char → Bool) (l : List Char) (c : Char)
    (hc : c ∈ l) (hp : p c = false) : c ∈ l.dropWhile p := by
  induction l with
  | nil => cases hc
  | cons a xs ih =>
    cases h : p a with
    | true =>
      rw [List.dropWhile_cons_of_pos h]
      rcases List.mem_cons.mp hc with rfl | hx
      · rw [h] at hp; cases hp
      · exact ih hx
    | false => rwa [List.dropWhile_cons_of_neg (by simp [h])]

theorem trimChars_ne_nil (l : List Char) (c : Char) (hc : c ∈ l)
    (hw : isWS c = false) : trimChars l ≠ [] := by
  intro hnil
  have h1 : c ∈ l.dropWhile isWS := mem_dropWhile_of_mem isWS l c hc hw
  have h2 : (l.dropWhile isWS).reverse.dropWhile isWS = [] := by
    have := congrArg List.reverse hnil
    rwa [trimChars, dropTrailing, List.reverse_reverse] at this
  have h3 := List.dropWhile_eq_nil_iff.mp h2 c (List.mem_reverse.mpr h1)
  rw [hw] at h3; cases h3

/-! ## joinWith toolkit -/

theorem joinWith_ne_nil (sep : List Char) (pieces : List (List Char))
    (hne : pieces ≠ []) (hall : ∀ p ∈ pieces, p ≠ []) :
    joinWith sep pieces ≠ [] := by
  match pieces with
  | [] => exact absurd rfl hne
  | [x] => simpa [joinWith] using hall x (by simp)
  | x :: y :: xs =>
    simp only [joinWith]
    exact List.append_ne_nil_of_left_ne_nil
      (List.append_ne_nil_of_left_ne_nil (hall x (by simp)) sep) _

theorem joinWith_space_trimInv (pieces : List (List Char))
    (hall : ∀ p ∈ pieces, trimChars p = p ∧ p ≠ []) :
    trimChars (joinWith [' '] pieces) = joinWith [' '] pieces := by
  match pieces with
  | [] => rfl
  | [x] => simpa [joinWith] using (hall x (by simp)).1
  | x :: y :: xs =>
    have hx := hall x (by simp)
    have hrest : ∀ p ∈ y :: xs, trimChars p = p ∧ p ≠ [] := by
      intro p hp; exact hall p (by simp [hp])
    have hJ : trimChars (joinWith [' '] (y :: xs)) = joinWith [' '] (y :: xs) :=
      joinWith_space_trimInv (y :: xs) hrest
    have hJne : joinWith [' '] (y :: xs) ≠ [] :=
      joinWith_ne_nil [' '] (y :: xs) (by simp) (fun p hp => (hrest p hp).2)
    simp only [joinWith]
    apply trimChars_eq_self_of
    · intro c hc
      cases hx0 : x with
      | nil => exact absurd hx0 hx.2
      | cons d ds =>
        rw [hx0] at hc
        simp only [List.cons_append, List.head?_cons, Option.some.injEq] at hc
        subst hc
        apply head?_trimChars x
        rw [hx.1, hx0]; rfl
    · intro c hc
      rw [List.append_assoc, List.getLast?_append] at hc
      have hJlast : (joinWith [' '] (y :: xs)).getLast?.isSome :=
        List.getLast?_isSome.mpr hJne
      obtain ⟨e, he⟩ := Option.isSome_iff_exists.mp hJlast
      rw [List.getLast?_append, he] at hc
      simp only [Option.or_some, Option.some.injEq] at hc
      subst hc
      apply getLast?_trimChars (joinWith [' '] (y :: xs))
      rw [hJ]; exact he

theorem spansToTextChars_trimInv (spans : List TextSpan) :
    trimChars (spansToTextChars spans) = spansToTextChars spans := by
  apply joinWith_space_trimInv
  intro p hp
  obtain ⟨hmem, hne⟩ := List.mem_filter.mp hp
  obtain ⟨s, _, rfl⟩ := List.mem_map.mp hmem
  refine ⟨trimChars_idem s.text.data, ?_⟩
  simpa using hne

/-! ## C3: block-to-text flattening -/

/-- C3 counterexample: the code trims each span text before joining, so a
span whose text carries leading whitespace refutes the claim's literal
"span texts joined with a single space" flattening. -/
theorem C3_counterexample :
    blocks_to_plain_text [ChapterBlock.Paragraph [TextSpan.plain " a"]] ≠
      claimedFlatten [ChapterBlock.Paragraph [TextSpan.plain " a"]] := by
  decide

/-- C3 amended: flattening joins, within each block, the trimmed span texts
with empty ones dropped using a single space, skips blocks whose joined text
is empty, and joins the rest with a blank line; the claim's concrete instance
evaluates as stated. -/
theorem C3_flattening :
    (∀ blocks, blocks_to_plain_text blocks = amendedFlatten blocks) ∧
    blocks_to_plain_text
        [ChapterBlock.Heading 1 [TextSpan.plain "Title"],
         ChapterBlock.Paragraph [TextSpan.plain "First paragraph"],
         ChapterBlock.Paragraph [TextSpan.plain "Second paragraph"]] =
      "Title\n\nFirst paragraph\n\nSecond paragraph" := by
  constructor
  · intro blocks
    unfold blocks_to_plain_text amendedFlatten
    congr 1
    congr 1
    apply List.filter_congr
    intro t ht
    obtain ⟨b, _, rfl⟩ := List.mem_map.mp ht
    rw [spansToTextChars_trimInv]
  · decide

/-! ## C7: author collection -/

theorem matchedVals_cons (keys : List String) (item : MetaItem)
    (rest : List MetaItem) :
    matchedVals keys (item :: rest) =
      if matchesKey keys item.property then
        (if (rsTrim item.value).data.isEmpty then matchedVals keys rest
         else rsTrim item.value :: matchedVals keys rest)
      else matchedVals keys rest := by
  unfold matchedVals
  rw [List.filter_cons]
  cases hm : matchesKey keys item.property with
  | false => simp
  | true =>
    simp only [if_true, List.map_cons, List.filter_cons]
    cases hv : (rsTrim item.value).data.isEmpty with
    | false => simp [hv]
    | true => simp [hv]

theorem dedupCI_cons (v : String) (rest : List String) :
    dedupCaseInsensitive (v :: rest) =
      v :: dedupCaseInsensitive (rest.filter (fun w => !rsEqIgnoreAsciiCase v w)) := by
  simp [dedupCaseInsensitive]

theorem collectMetaGo_spec (keys : List String) :
    ∀ (md : List MetaItem) (values : List String),
      collectMetaGo keys md values =
        values ++ dedupCaseInsensitive ((matchedVals keys md).filter
          (fun v => !(values.any (fun existing => rsEqIgnoreAsciiCase existing v)))) := by
  intro md
  induction md with
  | nil =>
    intro values
    simp [collectMetaGo, matchedVals, dedupCaseInsensitive]
  | cons item rest ih =>
    intro values
    cases hm : matchesKey keys item.property with
    | false =>
      rw [matchedVals_cons, hm, if_neg Bool.false_ne_true]
      have h1 : collectMetaGo keys (item :: rest) values =
          collectMetaGo keys rest values := by
        simp [collectMetaGo, hm]
      rw [h1]; exact ih values
    | true =>
      rw [matchedVals_cons, hm, if_pos rfl]
      cases hv : (rsTrim item.value).data.isEmpty with
      | true =>
        rw [if_pos rfl]
        have h1 : collectMetaGo keys (item :: rest) values =
            collectMetaGo keys rest values := by
          simp [collectMetaGo, hm, hv]
        rw [h1]; exact ih values
      | false =>
        rw [if_neg Bool.false_ne_true]
        cases ha : values.any (fun existing =>
            rsEqIgnoreAsciiCase existing (rsTrim item.value)) with
        | true =>
          have h1 : collectMetaGo keys (item :: rest) values =
              collectMetaGo keys rest values := by
            simp [collectMetaGo, hm, hv, ha]
          rw [h1, ih values, List.filter_cons]
          simp [ha]
        | false =>
          have h1 : collectMetaGo keys (item :: rest) values =
              collectMetaGo keys rest (values ++ [rsTrim item.value]) := by
            simp [collectMetaGo, hm, hv, ha]
          rw [h1, ih (values ++ [rsTrim item.value]), List.filter_cons]
          simp only [ha, Bool.not_false, if_true]
          rw [dedupCI_cons, List.append_assoc]
          simp only [List.singleton_append, List.cons.injEq, List.append_cancel_left_eq]
          refine ⟨trivial, ?_⟩
          congr 1
          rw [List.filter_filter]
          apply List.filter_congr
          intro w _
          simp [List.any_append, Bool.not_or, Bool.and_comm]

/-- C7: the normalized author list consists of the trimmed values of all
author-matching pairs, empties discarded, deduplicated case-insensitively
preserving first-seen order and casing; in particular the `Jane Doe` example
collapses as the claim states. -/
theorem C7_author_dedup :
    (∀ metadata keys,
      collect_metadata_values metadata keys = claimedAuthorList metadata keys) ∧
    collect_metadata_values
        [⟨"dc:creator", "Jane Doe"⟩, ⟨"dc:creator", "JANE DOE"⟩,
         ⟨"dc:creator", "John Roe"⟩] ["creator", "author"] =
      ["Jane Doe", "John Roe"] := by
  constructor
  · intro metadata keys
    unfold collect_metadata_values claimedAuthorList
    rw [collectMetaGo_spec]
    simp only [List.any_nil, Bool.not_false, List.nil_append]
    rw [List.filter_true]
    rfl
  · decide

/-! ## C10: jump_to_chapter_href -/

theorem find?_enumFrom_eq_none (hr : String) :
    ∀ (l : List Chapter) (n : Nat), (∀ c ∈ l, (c.href == hr) = false) →
      (l.enumFrom n).find? (fun p => p.2.href == hr) = none := by
  intro l
  induction l with
  | nil => intro n _; rfl
  | cons a xs ih =>
    intro n h
    rw [List.enumFrom_cons, List.find?_cons_of_neg]
    · exact ih (n + 1) (fun c hc => h c (List.mem_cons_of_mem a hc))
    · simp [h a (List.mem_cons_self a xs)]

theorem find?_enumFrom_of_findIdx? (hr : String) :
    ∀ (l : List Chapter) (n i : Nat),
      l.findIdx? (fun c => c.href == hr) = some i →
      ∃ c, (l.enumFrom n).find? (fun p => p.2.href == hr) = some (n + i, c) := by
  intro l
  induction l with
  | nil => intro n i h; simp at h
  | cons a xs ih =>
    intro n i h
    rw [List.findIdx?_cons] at h
    cases hp : (a.href == hr) with
    | true =>
      rw [hp, if_pos rfl] at h
      obtain rfl : (0 : Nat) = i := by simpa using h
      refine ⟨a, ?_⟩
      rw [List.enumFrom_cons, List.find?_cons_of_pos]
      · rw [Nat.add_zero]
      · simpa using hp
    | false =>
      rw [hp, if_neg Bool.false_ne_true] at h
      rw [List.findIdx?_start_succ] at h
      obtain ⟨j, hj, hij⟩ := Option.map_eq_some'.mp h
      have hij2 : j + 1 = i := by simpa using hij
      obtain ⟨c, hc⟩ := ih (n + 1) j hj
      refine ⟨c, ?_⟩
      rw [List.enumFrom_cons, List.find?_cons_of_neg]
      · rw [hc]
        have harith : n + 1 + j = n + i := by omega
        rw [harith]
      · simp [hp]

/-- C10: when no chapter of the active book has the given href (or there is
no active book), `jump_to_chapter_href` returns false and leaves the whole
state unchanged; when a chapter matches, it returns true and sets
`current_chapter` to the index of the first match. -/
theorem C10_jump_to_chapter_href (s : ReaderState) (href : String) :
    (s.active_book = none → jump_to_chapter_href s href = (false, s)) ∧
    (∀ book, s.active_book = some book →
      (∀ c ∈ book.chapters, ¬ c.href = href) →
      jump_to_chapter_href s href = (false, s)) ∧
    (∀ book i, s.active_book = some book →
      book.chapters.findIdx? (fun c => c.href == href) = some i →
      jump_to_chapter_href s href =
        (true, { s with current_chapter := some i })) := by
  refine ⟨?_, ?_, ?_⟩
  · intro h; simp [jump_to_chapter_href, h]
  · intro book hb hnone
    have h0 : ∀ c ∈ book.chapters, (c.href == href) = false := by
      intro c hc; exact beq_eq_false_iff_ne.mpr (hnone c hc)
    have hfind := find?_enumFrom_eq_none href book.chapters 0 h0
    simp only [jump_to_chapter_href, hb]
    rw [show book.chapters.enum = book.chapters.enumFrom 0 from rfl, hfind]
  · intro book i hb hidx
    obtain ⟨c, hc⟩ := find?_enumFrom_of_findIdx? href book.chapters 0 i hidx
    simp only [jump_to_chapter_href, hb]
    rw [show book.chapters.enum = book.chapters.enumFrom 0 from rfl, hc,
      Nat.zero_add]

/-! ## C4: release-identifier fallback -/

theorem metadata_value_eq_none (metadata : List MetaItem) (keys : List String)
    (h : ∀ item ∈ metadata, matchesKey keys item.property = false) :
    metadata_value metadata keys = none := by
  unfold metadata_value
  rw [Option.map_eq_none', List.find?_eq_none]
  intro x hx
  simp [h x hx]

/-- C4 counterexample: with no metadata pairs at all and a supplied release
identifier, the normalized identifier falls back to it but the normalized
title stays `None` — the title does not fall back to the release
identifier. -/
theorem C4_counterexample :
    (extract_metadata ⟨[], some "urn:isbn:123", none⟩).identifier =
      some "urn:isbn:123" ∧
    (extract_metadata ⟨[], some "urn:isbn:123", none⟩).title = none ∧
    (extract_metadata ⟨[], some "urn:isbn:123", none⟩).title ≠
      some "urn:isbn:123" := by
  refine ⟨by decide, by decide, by decide⟩

/-- C4 amended: when no property matches the identifier key, the normalized
identifier equals the release identifier; the title has no such fallback —
when no property matches the title key and the dedicated title accessor
yields none, the normalized title is `None` regardless of the release
identifier. -/
theorem C4_release_identifier_fallback (doc : MetaDoc) :
    ((∀ item ∈ doc.metadata, matchesKey ["identifier"] item.property = false) →
      (extract_metadata doc).identifier = doc.releaseIdentifier) ∧
    ((∀ item ∈ doc.metadata, matchesKey ["title"] item.property = false) →
      doc.docTitle = none → (extract_metadata doc).title = none) := by
  constructor
  · intro h
    have hnone := metadata_value_eq_none doc.metadata ["identifier"] h
    simp [extract_metadata, hnone]
  · intro h hdt
    have hnone := metadata_value_eq_none doc.metadata ["title"] h
    simp [extract_metadata, hnone, hdt]

/-! ## C1: title derivation chain -/

/-- C1: the derived title is the first success of the ordered fallback
chain — exact TOC label, path-suffix TOC label, first non-empty block text,
first non-blank plain-text line, non-empty manifest id, `None` — and an
earlier success always wins over every later step. -/
theorem C1_title_chain (labels : LabelMap) (path : String)
    (blocks : List ChapterBlock) (pt : String) (fid : String) :
    (∀ l, lookupLabel labels path = some l →
      derive_chapter_title labels path blocks pt fid = some l) ∧
    (lookupLabel labels path = none →
      ((∀ l, match_toc_label labels path = some l →
        derive_chapter_title labels path blocks pt fid = some l) ∧
      (match_toc_label labels path = none →
        ((∀ t, firstBlockTitle blocks = some t →
          derive_chapter_title labels path blocks pt fid = some t) ∧
        (firstBlockTitle blocks = none →
          ((∀ ln, (rsLines pt).find? (fun line => !(rsTrim line).data.isEmpty) =
              some ln →
            derive_chapter_title labels path blocks pt fid = some (rsTrim ln)) ∧
          ((rsLines pt).find? (fun line => !(rsTrim line).data.isEmpty) = none →
            ((fid.data.isEmpty = false →
              derive_chapter_title labels path blocks pt fid = some fid) ∧
            (fid.data.isEmpty = true →
              derive_chapter_title labels path blocks pt fid = none))))))))) := by
  refine ⟨?_, ?_⟩
  · intro l hl
    simp [derive_chapter_title, hl]
  · intro h1
    refine ⟨?_, ?_⟩
    · intro l hl
      simp [derive_chapter_title, h1, hl]
    · intro h2
      refine ⟨?_, ?_⟩
      · intro t ht
        simp [derive_chapter_title, h1, h2, ht]
      · intro h3
        refine ⟨?_, ?_⟩
        · intro ln hln
          simp [derive_chapter_title, h1, h2, h3, hln]
        · intro h4
          refine ⟨?_, ?_⟩
          · intro h5
            simp [derive_chapter_title, h1, h2, h3, h4, h5]
          · intro h5
            simp [derive_chapter_title, h1, h2, h3, h4, h5]

/-! ## C6: list-item prefix -/

theorem parse_list_item_pre (l : String) (p t : String)
    (h : parse_list_item l = some (p, t)) : p = "• " := by
  simp only [parse_list_item] at h
  split at h
  · simp_all
  · split at h
    · simp_all
    · split at h
      · simp_all
      · split at h
        · simp_all
        · simp_all

/-- C6 counterexample: a recognized list-item line ("- x") emits the span
text "• x" (bullet and space), not the claimed "- x" (hyphen and space). -/
theorem C6_counterexample :
    blocks_from_tagged_lines [[TaggedLineElement.str ⟨"- x", []⟩]] =
      [ChapterBlock.Paragraph [TextSpan.plain "• x"]] ∧
    blocks_from_tagged_lines [[TaggedLineElement.str ⟨"- x", []⟩]] ≠
      [ChapterBlock.Paragraph [TextSpan.plain "- x"]] :=
  ⟨by decide, by decide⟩

/-- C6 amended: for every line the scan recognizes as a list item (non-blank,
no underline heading, no hash heading, `parse_list_item` succeeds), the
emitted block is a Paragraph whose single span text is the item's trimmed
text prefixed with exactly "• " (a bullet and a space). -/
theorem C6_list_item_block (line : TaggedLine) (rest : List TaggedLine)
    (para : List TextSpan) (pre text : String)
    (h1 : (rsTrim (lineIntoString line)).data.isEmpty = false)
    (h2 : underline_heading_level ((rest.head?).map
      (fun l => rsTrim (lineIntoString l))) = none)
    (h3 : parse_hash_heading (rsTrim (lineIntoString line)) = none)
    (h4 : parse_list_item (rsTrim (lineIntoString line)) = some (pre, text)) :
    pre = "• " ∧
    bftlGo (line :: rest) para =
      flush_paragraph_spans para ++
        (ChapterBlock.Paragraph [TextSpan.plain (pre ++ rsTrim text)] ::
          bftlGo rest []) := by
  refine ⟨parse_list_item_pre _ _ _ h4, ?_⟩
  rw [bftlGo]
  · rw [h3, h4]
    simp [h1]
  · exact h2

/-- C6 witness: the amended statement at the concrete line "- item". -/
theorem C6_list_item_block_witness :
    ("• " : String) = "• " ∧
    bftlGo [[TaggedLineElement.str ⟨"- item", []⟩]] [] =
      flush_paragraph_spans [] ++
        (ChapterBlock.Paragraph [TextSpan.plain ("• " ++ rsTrim "item")] ::
          bftlGo [] []) :=
  C6_list_item_block [TaggedLineElement.str ⟨"- item", []⟩] [] [] "• " "item"
    (by decide) (by decide) (by decide) (by decide)

/-! ## C2: span styling -/

/-- C2 counterexample: a line whose second tagged string carries a `Strong`
annotation yields one block with two spans, one of them bold — not an
unstyled singleton. -/
theorem C2_counterexample :
    (html_to_blocks (fun _ => [[TaggedLineElement.str ⟨"Hello ", []⟩,
        TaggedLineElement.str ⟨"world", [RichAnn.Strong]⟩]]) "x").all
      unstyledSingleton = false := by
  decide

/-! ## C5: chapter list follows the filtered reading order -/

theorem collectChaptersGo_spec (render : String → List TaggedLine)
    (fromRead : String → String) (doc : PackageDoc) (toc_labels : LabelMap) :
    ∀ spine : List String,
      ((collectChaptersGo render fromRead doc toc_labels spine).map
          (fun c => c.id) = spine.filter (spineIdKept doc)) ∧
      (∀ c ∈ collectChaptersGo render fromRead doc toc_labels spine,
        ∃ r, lookupResource doc c.id = some r ∧ c.href = r.path) := by
  intro spine
  induction spine with
  | nil => exact ⟨rfl, by intro c hc; cases hc⟩
  | cons idref rest ih =>
    cases hres : lookupResource doc idref with
    | none =>
      have hgo : collectChaptersGo render fromRead doc toc_labels (idref :: rest) =
          collectChaptersGo render fromRead doc toc_labels rest := by
        simp only [collectChaptersGo, hres]
      have hkept : spineIdKept doc idref = false := by
        simp [spineIdKept, hres]
      refine ⟨?_, ?_⟩
      · rw [hgo, ih.1, List.filter_cons, hkept]
        simp
      · rw [hgo]; exact ih.2
    | some resource =>
      cases hm : (rsContains (rsToAsciiLowercase resource.mime) "html" ||
          rsContains (rsToAsciiLowercase resource.mime) "xhtml") with
      | false =>
        have hgo : collectChaptersGo render fromRead doc toc_labels (idref :: rest) =
            collectChaptersGo render fromRead doc toc_labels rest := by
          simp only [collectChaptersGo, hres, hm]
          simp
        have hkept : spineIdKept doc idref = false := by
          simp [spineIdKept, hres, hm]
        refine ⟨?_, ?_⟩
        · rw [hgo, ih.1, List.filter_cons, hkept]
          simp
        · rw [hgo]; exact ih.2
      | true =>
        cases hstr : doc.resourceStr idref with
        | none =>
          have hgo : collectChaptersGo render fromRead doc toc_labels (idref :: rest) =
              collectChaptersGo render fromRead doc toc_labels rest := by
            simp only [collectChaptersGo, hres, hm, hstr]
            simp
          have hkept : spineIdKept doc idref = false := by
            simp [spineIdKept, hres, hm, hstr]
          refine ⟨?_, ?_⟩
          · rw [hgo, ih.1, List.filter_cons, hkept]
            simp
          · rw [hgo]; exact ih.2
        | some html =>
          have hgo : collectChaptersGo render fromRead doc toc_labels (idref :: rest) =
              { id := idref,
                title := derive_chapter_title toc_labels resource.path
                  (html_to_blocks render html)
                  (if (html_to_blocks render html).isEmpty then
                    html_to_plain_text fromRead html
                   else blocks_to_plain_text (html_to_blocks render html)) idref,
                href := resource.path,
                blocks := html_to_blocks render html,
                plain_text :=
                  if (html_to_blocks render html).isEmpty then
                    html_to_plain_text fromRead html
                  else blocks_to_plain_text (html_to_blocks render html) } ::
                collectChaptersGo render fromRead doc toc_labels rest := by
            simp only [collectChaptersGo, hres, hm, hstr]
            simp
          have hkept : spineIdKept doc idref = true := by
            simp [spineIdKept, hres, hm, hstr]
          refine ⟨?_, ?_⟩
          · rw [hgo, List.map_cons, ih.1, List.filter_cons, hkept]
            simp
          · intro c hc
            rw [hgo] at hc
            rcases List.mem_cons.mp hc with rfl | hmem
            · exact ⟨resource, hres, rfl⟩
            · exact ih.2 c hmem

/-- C5: the built chapter list is exactly the reading order restricted, in
order, to ids that resolve to a manifest entry with an HTML-ish media type
and retrievable fragment text; each chapter keeps the reading-order id and
the manifest entry's path as href. -/
theorem C5_chapters_follow_spine (render : String → List TaggedLine)
    (fromRead : String → String) (doc : PackageDoc) (spine : List String)
    (toc_labels : LabelMap) :
    ((collect_chapters render fromRead doc spine toc_labels).map
        (fun c => c.id) = spine.filter (spineIdKept doc)) ∧
    (∀ c ∈ collect_chapters render fromRead doc spine toc_labels,
      ∃ r, lookupResource doc c.id = some r ∧ c.href = r.path) :=
  collectChaptersGo_spec render fromRead doc toc_labels spine

/-! ## C8: first-seen TOC label map -/

theorem lookupLabel_insertIfAbsent (m : LabelMap) (k v p : String) :
    lookupLabel (insertIfAbsent m k v) p =
      (lookupLabel m p).or (if k == p then some v else none) := by
  unfold insertIfAbsent
  cases hany : m.any (fun e => e.1 == k) with
  | true =>
    rw [if_pos rfl]
    cases hk : (k == p) with
    | false => simp [Option.or_none]
    | true =>
      have hkp : k = p := by simpa using hk
      obtain ⟨e, he, heq⟩ := List.any_eq_true.mp hany
      have hsome : (m.find? (fun e => e.1 == p)).isSome := by
        rw [List.find?_isSome]
        exact ⟨e, he, by rw [← hkp]; exact heq⟩
      obtain ⟨x, hx⟩ := Option.isSome_iff_exists.mp hsome
      simp [lookupLabel, hx]
  | false =>
    rw [if_neg Bool.false_ne_true]
    simp only [lookupLabel, List.find?_append]
    cases hfind : m.find? (fun e => e.1 == p) with
    | some e => simp
    | none =>
      cases hk : (k == p) with
      | true =>
        rw [List.find?_cons_of_pos _ (by simpa using hk)]
        simp
      | false =>
        rw [List.find?_cons_of_neg _ (by simpa using hk)]
        simp

theorem collectNavLabelsList_lookup :
    ∀ (fuel : Nat) (ns : List NavPoint), sizeOf ns ≤ fuel →
      ∀ (m : LabelMap) (p : String),
        lookupLabel (collectNavLabelsList ns m) p =
          (lookupLabel m p).or
            (((navFlattenList ns).find?
              (fun x => normalize_nav_path x.content == p)).map
              (fun x => x.label)) := by
  intro fuel
  induction fuel with
  | zero =>
    intro ns h m p
    cases ns <;> simp at h
  | succ fuel ih =>
    intro ns h m p
    cases ns with
    | nil =>
      rw [show collectNavLabelsList [] m = m from by rw [collectNavLabelsList]]
      rw [show navFlattenList [] = [] from by rw [navFlattenList]]
      simp [Option.or_none]
    | cons c cs =>
      cases c with
      | mk lb ct ch =>
        have hch : sizeOf ch ≤ fuel := by
          simp only [List.cons.sizeOf_spec, NavPoint.mk.sizeOf_spec] at h
          omega
        have hcs : sizeOf cs ≤ fuel := by
          simp only [List.cons.sizeOf_spec, NavPoint.mk.sizeOf_spec] at h
          omega
        rw [show collectNavLabelsList (NavPoint.mk lb ct ch :: cs) m =
            collectNavLabelsList cs (collect_nav_labels (NavPoint.mk lb ct ch) m)
          from by rw [collectNavLabelsList]]
        rw [ih cs hcs]
        rw [show collect_nav_labels (NavPoint.mk lb ct ch) m =
            collectNavLabelsList ch
              (insertIfAbsent m (normalize_nav_path ct) lb)
          from by rw [collect_nav_labels]]
        rw [ih ch hch]
        rw [lookupLabel_insertIfAbsent]
        rw [show navFlattenList (NavPoint.mk lb ct ch :: cs) =
            navFlatten (NavPoint.mk lb ct ch) ++ navFlattenList cs
          from by rw [navFlattenList]]
        rw [show navFlatten (NavPoint.mk lb ct ch) =
            NavPoint.mk lb ct ch :: navFlattenList ch
          from by rw [navFlatten]]
        rw [List.cons_append, List.find?_cons]
        cases hk : (normalize_nav_path ct == p) with
        | true =>
          rw [if_pos (by simp [hk])]
          cases hmp : lookupLabel m p <;> simp
        | false =>
          rw [if_neg (by simp [hk])]
          rw [List.find?_append]
          cases hmp : lookupLabel m p with
          | some a => simp
          | none =>
            simp only [Option.none_or, Option.or_none]
            cases hf1 : (navFlattenList ch).find?
                (fun x => normalize_nav_path x.content == p) <;> simp

/-- C8: the TOC label map maps each fragment-stripped target path to the
label of the first node, in depth-first pre-order sibling order, whose
normalized target equals that path; a later node with the same normalized
path never overwrites an earlier label. -/
theorem C8_label_map_first_wins (nav : List NavPoint) (p : String) :
    lookupLabel (build_toc_label_map nav) p =
      ((navFlattenList nav).find?
        (fun x => normalize_nav_path x.content == p)).map (fun x => x.label) := by
  have h := collectNavLabelsList_lookup (sizeOf nav) nav (Nat.le_refl _) [] p
  unfold build_toc_label_map
  rw [h]
  simp [lookupLabel]

/-! ## C9: retained blocks are non-empty -/

theorem spansToTextChars_single (s : TextSpan) :
    spansToTextChars [s] =
      if (trimChars s.text.data).isEmpty then [] else trimChars s.text.data := by
  unfold spansToTextChars
  cases h : (trimChars s.text.data).isEmpty with
  | true => simp [h, joinWith]
  | false => simp [h, joinWith]

theorem goodBlock_heading_single (lvl : Nat) (s : TextSpan)
    (h : (trimChars s.text.data).isEmpty = false) :
    goodBlock (ChapterBlock.Heading lvl [s]) = true := by
  simp [goodBlock, ChapterBlock.spans, spansToTextChars_single, h, trimChars_idem]

theorem goodBlock_paragraph_single (s : TextSpan)
    (h : (trimChars s.text.data).isEmpty = false) :
    goodBlock (ChapterBlock.Paragraph [s]) = true := by
  simp [goodBlock, ChapterBlock.spans, spansToTextChars_single, h, trimChars_idem]

theorem flush_all_good (para : List TextSpan) :
    (flush_paragraph_spans para).all goodBlock = true := by
  unfold flush_paragraph_spans
  cases hp : para.isEmpty with
  | true => simp
  | false =>
    cases ht : (trimChars (spansToTextChars (merge_spans para))).isEmpty with
    | true => simp [spans_to_text, ht]
    | false =>
      have hne : merge_spans para ≠ [] := by
        intro h0
        rw [h0] at ht
        exact absurd ht (by decide)
      have h1 : (merge_spans para).isEmpty = false := by
        cases hml : merge_spans para with
        | nil => exact absurd hml hne
        | cons a l => rfl
      simp [spans_to_text, ht, goodBlock, ChapterBlock.spans, h1]

theorem parse_hash_heading_trim (l : String) (lv : Nat) (t : String)
    (h : parse_hash_heading l = some (lv, t)) :
    (trimChars t.data).isEmpty = false := by
  simp only [parse_hash_heading] at h
  split at h
  · split at h
    · cases h
    · rename_i hc
      simp only [Option.some.injEq, Prod.mk.injEq] at h
      obtain ⟨h5, h6⟩ := h
      subst h6
      simp only [rsTrim, trimChars_idem]
      simp only [rsTrim] at hc
      cases hbb : (trimChars (String.mk (l.data.drop
          (min (l.data.takeWhile (fun c => c == '#')).length 6))).data).isEmpty with
      | false => rfl
      | true => exact absurd hbb (by simpa using hc)
  · cases h

theorem bftlGo_nil (para : List TextSpan) :
    bftlGo [] para = flush_paragraph_spans para := by
  rw [bftlGo]

theorem bftlGo_underline_step (line next : TaggedLine) (rest2 : List TaggedLine)
    (para : List TextSpan) (level : Nat)
    (h2 : underline_heading_level (some (rsTrim (lineIntoString next))) =
      some level) :
    bftlGo (line :: next :: rest2) para =
      if (rsTrim (lineIntoString line)).data.isEmpty = true then
        flush_paragraph_spans para ++ bftlGo (next :: rest2) []
      else
        flush_paragraph_spans para ++
          (ChapterBlock.Heading level
            [TextSpan.plain (rsTrim (lineIntoString line))] :: bftlGo rest2 []) := by
  rw [bftlGo.eq_def]
  simp only [List.head?_cons, Option.map_some', h2]

theorem bftlGo_all_good (fuel : Nat) :
    ∀ (lines : List TaggedLine), lines.length ≤ fuel →
      ∀ (para : List TextSpan), (bftlGo lines para).all goodBlock = true := by
  induction fuel with
  | zero =>
    intro lines h para
    have h0 : lines = [] := List.length_eq_zero.mp (Nat.le_zero.mp h)
    subst h0
    rw [bftlGo_nil]
    exact flush_all_good para
  | succ fuel ih =>
    intro lines h para
    cases lines with
    | nil =>
      rw [bftlGo_nil]
      exact flush_all_good para
    | cons line rest =>
      have hrest : rest.length ≤ fuel := by
        simp only [List.length_cons] at h; omega
      cases hu : underline_heading_level ((rest.head?).map
          (fun l => rsTrim (lineIntoString l))) with
      | some level =>
        cases rest with
        | nil => simp [underline_heading_level] at hu
        | cons next rest2 =>
          have hrest2 : rest2.length ≤ fuel := by
            simp only [List.length_cons] at h; omega
          rw [bftlGo_underline_step line next rest2 para level
            (by simp only [List.head?_cons, Option.map_some'] at hu; exact hu)]
          cases hemp : (rsTrim (lineIntoString line)).data.isEmpty with
          | true =>
            simp only [hemp, if_true, List.all_append]
            rw [flush_all_good, ih (next :: rest2) hrest []]
            rfl
          | false =>
            simp only [hemp, Bool.false_eq_true, if_false, List.all_append,
              List.all_cons]
            rw [flush_all_good, ih rest2 hrest2 []]
            have hgood : goodBlock (ChapterBlock.Heading level
                [TextSpan.plain (rsTrim (lineIntoString line))]) = true := by
              apply goodBlock_heading_single
              simpa [TextSpan.plain, rsTrim, trimChars_idem] using hemp
            rw [hgood]
            rfl
      | none =>
        rw [bftlGo]
        · cases hemp : (rsTrim (lineIntoString line)).data.isEmpty with
          | true =>
            simp only [hemp, if_true, List.all_append]
            rw [flush_all_good, ih rest hrest []]
            rfl
          | false =>
            simp only [hemp, Bool.false_eq_true, if_false]
            cases hph : parse_hash_heading (rsTrim (lineIntoString line)) with
            | some lt =>
              obtain ⟨level, text⟩ := lt
              simp only [hph, List.all_append, List.all_cons]
              rw [flush_all_good, ih rest hrest []]
              have hgood : goodBlock (ChapterBlock.Heading level
                  [TextSpan.plain text]) = true := by
                apply goodBlock_heading_single
                exact parse_hash_heading_trim _ _ _ hph
              rw [hgood]
              rfl
            | none =>
              simp only [hph]
              cases hli : parse_list_item (rsTrim (lineIntoString line)) with
              | some pt =>
                obtain ⟨pre, text⟩ := pt
                simp only [hli, List.all_append, List.all_cons]
                rw [flush_all_good, ih rest hrest []]
                have hpre : pre = "• " := parse_list_item_pre _ _ _ hli
                subst hpre
                have hgood : goodBlock (ChapterBlock.Paragraph
                    [TextSpan.plain ("• " ++ rsTrim text)]) = true := by
                  apply goodBlock_paragraph_single
                  have hmem : '•' ∈ ("• " ++ rsTrim text).data := by
                    simp [String.data_append]
                  have hnn := trimChars_ne_nil ("• " ++ rsTrim text).data '•' hmem
                    (by decide)
                  show (trimChars ("• " ++ rsTrim text).data).isEmpty = false
                  cases hbb : (trimChars ("• " ++ rsTrim text).data).isEmpty with
                  | false => rfl
                  | true => exact absurd (by simpa using hbb) hnn
                rw [hgood]
                rfl
              | none =>
                simp only [hli]
                exact ih rest hrest _
        · exact hu

/-- C9: every block in the parser's final output has a non-empty span list
and merged span text that is non-empty after trimming. -/
theorem C9_blocks_nonempty (render : String → List TaggedLine) (html : String) :
    (html_to_blocks render html).all goodBlock = true := by
  unfold html_to_blocks blocks_from_tagged_lines
  cases hb : (bftlGo (render html) []).isEmpty with
  | false =>
    simp only [hb, Bool.false_eq_true, if_false]
    exact bftlGo_all_good (render html).length (render html) (Nat.le_refl _) []
  | true =>
    simp only [hb, if_true]
    cases hc : (trimChars (normalize_whitespace
        ⟨joinWith ['\n'] ((render html).map (fun l => (lineIntoString l).data))⟩).data).isEmpty with
    | true => simp [hc]
    | false =>
      simp only [hc, Bool.false_eq_true, if_false, List.all_cons, List.all_nil,
        Bool.and_true]
      apply goodBlock_paragraph_single
      simpa [TextSpan.plain, rsTrim, trimChars_idem] using hc

/-! ## C2: unstyled singletons under style-free input -/

theorem spansFromLineGo_unstyled (tss : List TaggedString)
    (h : ∀ ts ∈ tss, ts.tag.all (fun a =>
      !(a == RichAnn.Strong) && !(a == RichAnn.Emphasis)) = true) :
    ∀ s ∈ spansFromLineGo tss, s.bold = false ∧ s.italic = false := by
  induction tss with
  | nil => intro s hs; cases hs
  | cons ts rest ih =>
    intro s hs
    have hts := h ts (List.mem_cons_self ts rest)
    have hrest : ∀ x ∈ rest, x.tag.all (fun a =>
        !(a == RichAnn.Strong) && !(a == RichAnn.Emphasis)) = true :=
      fun x hx => h x (List.mem_cons_of_mem _ hx)
    have hbold : (ts.tag.any (fun a => a == RichAnn.Strong)) = false := by
      rw [List.any_eq_false]
      intro a ha
      have h2 := List.all_eq_true.mp hts a ha
      simp only [Bool.and_eq_true, Bool.not_eq_true'] at h2
      simp [h2.1]
    have hital : (ts.tag.any (fun a => a == RichAnn.Emphasis)) = false := by
      rw [List.any_eq_false]
      intro a ha
      have h2 := List.all_eq_true.mp hts a ha
      simp only [Bool.and_eq_true, Bool.not_eq_true'] at h2
      simp [h2.2]
    simp only [spansFromLineGo, hbold, hital, Bool.false_or, Bool.false_eq_true,
      if_false] at hs
    split at hs
    · exact ih hrest s hs
    · split at hs
      · exact ih hrest s hs
      · rcases List.mem_cons.mp hs with rfl | hmem
        · exact ⟨rfl, rfl⟩
        · exact ih hrest s hmem

theorem spans_from_line_unstyled (line : TaggedLine)
    (h : lineUnstyled line = true) :
    ∀ s ∈ spans_from_line line, s.bold = false ∧ s.italic = false := by
  apply spansFromLineGo_unstyled
  exact List.all_eq_true.mp h

theorem addSpaceToLast_paraOK (target : List TextSpan) (ht : paraOK target) :
    paraOK (addSpaceToLast target) := by
  rcases ht with rfl | ⟨t, rfl, htb, hti⟩
  · exact Or.inl rfl
  · unfold addSpaceToLast
    cases hsp : (t.text.data.getLast? == some ' ') with
    | true =>
      simp only [List.getLast?_singleton, hsp, if_true]
      exact Or.inr ⟨t, rfl, htb, hti⟩
    | false =>
      simp only [List.getLast?_singleton, hsp, Bool.false_eq_true, if_false,
        List.dropLast_single, List.nil_append]
      exact Or.inr ⟨_, rfl, htb, hti⟩

theorem push_span_paraOK (target : List TextSpan) (s : TextSpan)
    (ht : paraOK target) (hb : s.bold = false) (hi : s.italic = false) :
    paraOK (push_span target s) := by
  unfold push_span
  cases hse : s.text.data.isEmpty with
  | true => simp only [hse, if_true]; exact ht
  | false =>
    simp only [hse, Bool.false_eq_true, if_false]
    rcases ht with rfl | ⟨t, rfl, htb, hti⟩
    · simp only [List.getLast?_nil, List.nil_append]
      exact Or.inr ⟨s, rfl, hb, hi⟩
    · have hcond : (t.bold == s.bold && t.italic == s.italic) = true := by
        rw [htb, hti, hb, hi]; rfl
      simp only [List.getLast?_singleton, hcond, if_true, List.dropLast_single,
        List.nil_append]
      exact Or.inr ⟨_, rfl, htb, hti⟩

theorem appendSpansGo_paraOK (isp : Bool) (spans : List TextSpan) :
    ∀ (target : List TextSpan) (first : Bool), paraOK target →
      (∀ s ∈ spans, s.bold = false ∧ s.italic = false) →
      paraOK (appendSpansGo isp target spans first) := by
  induction spans with
  | nil => intro target first ht _; exact ht
  | cons s rest ih =>
    intro target first ht hall
    simp only [appendSpansGo]
    apply ih
    · apply push_span_paraOK
      · cases hcond : (isp && first && !target.isEmpty) with
        | true => simp only [hcond, if_true]; exact addSpaceToLast_paraOK _ ht
        | false => simp only [hcond, Bool.false_eq_true, if_false]; exact ht
      · exact (hall s (List.mem_cons_self s rest)).1
      · exact (hall s (List.mem_cons_self s rest)).2
    · exact fun x hx => hall x (List.mem_cons_of_mem _ hx)

theorem append_spans_paraOK (target spans : List TextSpan) (isp : Bool)
    (ht : paraOK target)
    (hall : ∀ s ∈ spans, s.bold = false ∧ s.italic = false) :
    paraOK (append_spans target spans isp) := by
  unfold append_spans
  apply appendSpansGo_paraOK _ _ _ _ ht
  intro s hs
  exact hall s (List.mem_filter.mp hs).1

theorem flush_unstyled (para : List TextSpan) (hp : paraOK para) :
    (flush_paragraph_spans para).all unstyledSingleton = true := by
  rcases hp with rfl | ⟨s, rfl, hb, hi⟩
  · rfl
  · unfold flush_paragraph_spans
    cases hse : s.text.data.isEmpty with
    | true =>
      have hm : merge_spans [s] = [] := by
        simp [merge_spans, push_span, hse]
      have htn : trimChars ([] : List Char) = [] := rfl
      simp [hm, spans_to_text, spansToTextChars, joinWith, htn]
    | false =>
      have hm : merge_spans [s] = [s] := by
        simp [merge_spans, push_span, hse]
      rw [hm]
      cases hc : (trimChars (spansToTextChars [s])).isEmpty with
      | true => simp [spans_to_text, hc]
      | false =>
        simp [spans_to_text, hc, unstyledSingleton, ChapterBlock.spans, hb, hi]

theorem bftlGo_unstyled (fuel : Nat) :
    ∀ (lines : List TaggedLine), lines.length ≤ fuel →
      lines.all lineUnstyled = true →
      ∀ (para : List TextSpan), paraOK para →
        (bftlGo lines para).all unstyledSingleton = true := by
  induction fuel with
  | zero =>
    intro lines h _ para hp
    have h0 : lines = [] := List.length_eq_zero.mp (Nat.le_zero.mp h)
    subst h0
    rw [bftlGo_nil]
    exact flush_unstyled para hp
  | succ fuel ih =>
    intro lines h hl para hp
    cases lines with
    | nil =>
      rw [bftlGo_nil]
      exact flush_unstyled para hp
    | cons line rest =>
      have hrest : rest.length ≤ fuel := by
        simp only [List.length_cons] at h; omega
      have hlline : lineUnstyled line = true := by
        simp only [List.all_cons, Bool.and_eq_true] at hl; exact hl.1
      have hlrest : rest.all lineUnstyled = true := by
        simp only [List.all_cons, Bool.and_eq_true] at hl; exact hl.2
      cases hu : underline_heading_level ((rest.head?).map
          (fun l => rsTrim (lineIntoString l))) with
      | some level =>
        cases rest with
        | nil => simp [underline_heading_level] at hu
        | cons next rest2 =>
          have hrest2 : rest2.length ≤ fuel := by
            simp only [List.length_cons] at h; omega
          have hlrest2 : rest2.all lineUnstyled = true := by
            simp only [List.all_cons, Bool.and_eq_true] at hlrest
            exact hlrest.2
          rw [bftlGo_underline_step line next rest2 para level
            (by simp only [List.head?_cons, Option.map_some'] at hu; exact hu)]
          cases hemp : (rsTrim (lineIntoString line)).data.isEmpty with
          | true =>
            simp only [hemp, if_true, List.all_append]
            rw [flush_unstyled para hp,
              ih (next :: rest2) hrest hlrest [] (Or.inl rfl)]
            rfl
          | false =>
            simp only [hemp, Bool.false_eq_true, if_false, List.all_append,
              List.all_cons]
            rw [flush_unstyled para hp, ih rest2 hrest2 hlrest2 [] (Or.inl rfl)]
            simp [unstyledSingleton, ChapterBlock.spans, TextSpan.plain]
      | none =>
        rw [bftlGo]
        · cases hemp : (rsTrim (lineIntoString line)).data.isEmpty with
          | true =>
            simp only [hemp, if_true, List.all_append]
            rw [flush_unstyled para hp, ih rest hrest hlrest [] (Or.inl rfl)]
            rfl
          | false =>
            simp only [hemp, Bool.false_eq_true, if_false]
            cases hph : parse_hash_heading (rsTrim (lineIntoString line)) with
            | some lt =>
              obtain ⟨level, text⟩ := lt
              simp only [hph, List.all_append, List.all_cons]
              rw [flush_unstyled para hp, ih rest hrest hlrest [] (Or.inl rfl)]
              simp [unstyledSingleton, ChapterBlock.spans, TextSpan.plain]
            | none =>
              simp only [hph]
              cases hli : parse_list_item (rsTrim (lineIntoString line)) with
              | some pt =>
                obtain ⟨pre, text⟩ := pt
                simp only [hli, List.all_append, List.all_cons]
                rw [flush_unstyled para hp, ih rest hrest hlrest [] (Or.inl rfl)]
                simp [unstyledSingleton, ChapterBlock.spans, TextSpan.plain]
              | none =>
                simp only [hli]
                apply ih rest hrest hlrest
                exact append_spans_paraOK para (spans_from_line line) _ hp
                  (spans_from_line_unstyled line hlline)
        · exact hu

/-- C2 amended: when no tagged string of the rendered lines carries a
`Strong` or `Emphasis` annotation, every block produced by the Markup Block
Parser contains exactly one span, and that span is unstyled (bold = false,
italic = false). -/
theorem C2_unstyled_singletons (render : String → List TaggedLine)
    (html : String) (h : (render html).all lineUnstyled = true) :
    (html_to_blocks render html).all unstyledSingleton = true := by
  unfold html_to_blocks blocks_from_tagged_lines
  cases hb : (bftlGo (render html) []).isEmpty with
  | false =>
    simp only [hb, Bool.false_eq_true, if_false]
    exact bftlGo_unstyled (render html).length (render html) (Nat.le_refl _) h []
      (Or.inl rfl)
  | true =>
    simp only [hb, if_true]
    cases hc : (trimChars (normalize_whitespace
        ⟨joinWith ['\n'] ((render html).map (fun l => (lineIntoString l).data))⟩).data).isEmpty with
    | true => simp [hc]
    | false =>
      simp only [hc, Bool.false_eq_true, if_false, List.all_cons, List.all_nil,
        Bool.and_true]
      simp [unstyledSingleton, ChapterBlock.spans, TextSpan.plain]

/-- C2 witness: the amended statement at a concrete style-free line. -/
theorem C2_unstyled_singletons_witness :
    (html_to_blocks (fun _ => [[TaggedLineElement.str ⟨"Hello world", []⟩]])
      "x").all unstyledSingleton = true :=
  C2_unstyled_singletons (fun _ => [[TaggedLineElement.str ⟨"Hello world", []⟩]])
    "x" (by decide)

end Bkai
